import Mathlib

/-!
# Verification of the pixel-buffer core of napi-image (src/lib.cc)

A shallow embedding of the C++ class Image: its constructor New, the bicubic
Resize and the alpha-blending Draw, with the helpers CubicInterpolate and
BicubicInterpolate.

Modelling conventions.
* int is a 32-bit two's-complement integer: every int operation of the source is
  written with iadd, isub or imul, which wrap modulo 2^32.
* float and double are IEEE-754 binary32 and binary64 with round-to-nearest,
  ties-to-even.  A floating-point value is the rational number it denotes, and
  every operation of the source is the exact rational operation followed by
  rounding to 24 or 53 significant bits.  The exponent range is not bounded:
  infinities, NaN and subnormal numbers are outside the model.
* unsigned char is Fin 256.
* pixels_ is an optional list of bytes: none is the null pointer, some l an
  allocated block of l.length bytes.  Reading outside the block yields 0 and
  writing outside it is dropped (both are undefined in C++).
* malloc is an oracle: a Heap says which request sizes succeed and what the
  fresh block contains.
* A thrown v8 exception is the error case of Except.
-/

set_option autoImplicit false
set_option linter.dupNamespace false

deriving instance DecidableEq for Except

namespace Image

/-! ## Machine integers -/

/-- Reduction of a mathematical integer to the 32-bit two's-complement range. -/
def wrap32 (z : Int) : Int := (z + 2147483648) % 4294967296 - 2147483648

/-- The int addition of the source. -/
def iadd (a b : Int) : Int := wrap32 (a + b)

/-- The int subtraction of the source. -/
def isub (a b : Int) : Int := wrap32 (a - b)

/-- The int multiplication of the source. -/
def imul (a b : Int) : Int := wrap32 (a * b)

/-- Conversion of an int to the 64-bit size_t taken by malloc and memset. -/
def toSizeT (z : Int) : Nat := (z % 18446744073709551616).toNat

/-- Largest value of int. -/
def INT_MAX : Int := 2147483647

/-- Smallest value of int. -/
def INT_MIN : Int := -2147483648

/-! ## Bytes and memory blocks -/

/-- An unsigned char. -/
abbrev Byte := Fin 256

/-- Conversion of an unsigned char to float or double (always exact). -/
def byteQ (b : Byte) : ℚ := ((b.val : Nat) : ℚ)

/-- Conversion of an int to unsigned char. -/
def toByte (z : Int) : Byte := Fin.ofNat (z % 256).toNat

/-- The read mem[i] through an int index. -/
def readByte (mem : List Byte) (i : Int) : Byte :=
  if 0 ≤ i then mem.getD i.toNat 0 else 0

/-- The write mem[i] = v through an int index. -/
def writeByte (mem : List Byte) (i : Int) (v : Byte) : List Byte :=
  if 0 ≤ i then mem.set i.toNat v else mem

/-- The allocator as seen by one call: which sizes it can serve and the
(unspecified) initial content of the block it hands out. -/
structure Heap where
  /-- Whether a request of the given size succeeds. -/
  avail : Nat → Bool
  /-- Initial content of byte i of the fresh block. -/
  junk : Nat → Byte

/-- The call malloc(size): none is the null pointer. -/
def malloc (hp : Heap) (size : Nat) : Option (List Byte) :=
  if hp.avail size then some ((List.range size).map hp.junk) else none

/-- The call memset(mem, v, n) on a block of at least n bytes. -/
def memset (mem : List Byte) (v : Byte) (n : Nat) : List Byte :=
  List.replicate (min n mem.length) v ++ mem.drop n

/-! ## Floating point -/

/-- Doubles the denominator while twice the denominator still fits under the
numerator; returns the final denominator and the number of doublings. -/
def normUp : Nat → Nat → Nat → Nat → Nat × Nat
  | 0, _, d, e => (d, e)
  | f + 1, n, d, e => if 2 * d ≤ n then normUp f n (2 * d) (e + 1) else (d, e)

/-- Doubles the numerator while it is below the denominator; returns the final
numerator and the number of doublings. -/
def normDown : Nat → Nat → Nat → Nat → Nat × Nat
  | 0, n, _, e => (n, e)
  | f + 1, n, d, e => if n < d then normDown f (2 * n) d (e + 1) else (n, e)

/-- Nearest natural number to N / D, ties to the even one. -/
def roundNearestEven (N D : Nat) : Nat :=
  let k := N / D
  let r := N % D
  if 2 * r < D then k else if D < 2 * r then k + 1 else if k % 2 = 0 then k else k + 1

/-- Rounding of a rational to the nearest binary floating-point number with p
significant bits (ties to even, unbounded exponent).  With n/d the absolute
value, a and b the doublings found by normUp and normDown, the significand is
the rounding of (n * 2^b * 2^(p-1)) / (d * 2^a), which lies in [2^(p-1), 2^p]. -/
def roundPrec (p : Nat) (q : ℚ) : ℚ :=
  let n := q.num.natAbs
  if n = 0 then 0 else
    let up := normUp n n q.den 0
    let dn := normDown q.den n q.den 0
    let k := roundNearestEven (dn.1 * 2 ^ (p - 1)) up.1
    let v : ℚ := ((k * 2 ^ up.2 : Nat) : ℚ) / ((2 ^ dn.2 * 2 ^ (p - 1) : Nat) : ℚ)
    if q.num < 0 then -v else v

/-- Rounding to float (binary32). -/
def f32 (q : ℚ) : ℚ := roundPrec 24 q

/-- Rounding to double (binary64). -/
def f64 (q : ℚ) : ℚ := roundPrec 53 q

/-- Truncation toward zero. -/
def truncQ (q : ℚ) : Int := q.num.tdiv q.den

/-- The cast (int)q of a float or double: truncation toward zero; when the
truncated value is not an int the cast is undefined in C++ and yields INT_MIN,
as the x86-64 conversion instructions do. -/
def truncToInt (q : ℚ) : Int :=
  if INT_MIN ≤ truncQ q ∧ truncQ q ≤ INT_MAX then truncQ q else INT_MIN

/-- The cast (unsigned char)q of a float: truncation toward zero, keeping the
low eight bits. -/
def castUChar (q : ℚ) : Byte := toByte (truncQ q)

/-! ## The bicubic kernel -/

/-- CubicInterpolate of the source (lines 31-33).  The array elements and x are
floats, the literals are doubles, so the two differences of array elements are
float operations, everything else is a double operation, and the returned value
is converted to float. -/
def CubicInterpolate (p : Fin 4 → ℚ) (x : ℚ) : ℚ :=
  f32 (f64 (p 1 + f64 (f64 (1 / 2 * x) *
    f64 (f32 (p 2 - p 0) + f64 (x *
      f64 (f64 (f64 (f64 (f64 (2 * p 0) - f64 (5 * p 1)) + f64 (4 * p 2)) - p 3) + f64 (x *
        f64 (f64 (f64 (3 * f32 (p 1 - p 2)) + p 3) - p 0))))))))

/-- BicubicInterpolate of the source (lines 35-42). -/
def BicubicInterpolate (p : Fin 4 → Fin 4 → ℚ) (x y : ℚ) : ℚ :=
  CubicInterpolate (fun i => CubicInterpolate (p i) y) x

/-! ## The Image object -/

/-- The fields of class Image. -/
structure Image where
  /-- Field width_ of the source. -/
  width_ : Int
  /-- Field height_ of the source. -/
  height_ : Int
  /-- Field pixels_ of the source. -/
  pixels_ : Option (List Byte)
deriving DecidableEq

/-- The exceptions thrown by the modelled methods, named after their message. -/
inductive Exception where
  /-- Error: Failed to allocate memory for image. -/
  | allocImage
  /-- Error: Failed to allocate memory for resized image. -/
  | allocResized
  /-- Error: One or both images have no data. -/
  | noData
deriving DecidableEq

/-- The arguments of a constructor call, as New distinguishes them. -/
inductive Args where
  /-- One number. -/
  | size (size : Int)
  /-- Two numbers. -/
  | widthHeight (width height : Int)
  /-- Anything else, in particular no argument. -/
  | other

/-- The constructor New (lines 80-112). -/
def New (hp : Heap) : Args → Except Exception Image
  | .size size =>
    match malloc hp (toSizeT (imul (imul size size) 3)) with
    | none => .error .allocImage
    | some mem =>
      .ok { width_ := size, height_ := size,
            pixels_ := some (memset mem 0 (toSizeT (imul (imul size size) 3))) }
  | .widthHeight width height =>
    match malloc hp (toSizeT (imul (imul width height) 3)) with
    | none => .error .allocImage
    | some mem =>
      .ok { width_ := width, height_ := height,
            pixels_ := some (memset mem 0 (toSizeT (imul (imul width height) 3))) }
  | .other => .ok { width_ := 0, height_ := 0, pixels_ := none }

/-! ## Resize -/

/-- The target width of Resize (line 157): int times double is a double
product, cast to int; the target height is the same expression on the height
(line 158). -/
def newDim (dim : Int) (ratio : ℚ) : Int := truncToInt (f64 (f64 dim * ratio))

/-- The expression std::min(std::max(v, 0), hi). -/
def clamp0 (v hi : Int) : Int := min (max v 0) hi

/-- The byte index (row * width + col) * 3 as the source computes it. -/
def pixelIndex (width row col : Int) : Int := imul (iadd (imul row width) col) 3

/-- The float gx (or gy) of lines 170-171: x / (float)newWidth * (width_ - 1). -/
def srcCoord (x newWidth width : Int) : ℚ :=
  f32 (f32 (f32 x / f32 newWidth) * f32 (isub width 1))

/-- The sample stored in p[m][n] for channel c (lines 180-182), m and n being
the array positions 0..3, that is the offsets -1..2. -/
def sample (obj : Image) (gxi gyi c : Int) (m n : Fin 4) : ℚ :=
  let px := clamp0 (iadd gxi ((m.val : Int) - 1)) (isub obj.width_ 1)
  let py := clamp0 (iadd gyi ((n.val : Int) - 1)) (isub obj.height_ 1)
  byteQ (readByte (obj.pixels_.getD []) (iadd (pixelIndex obj.width_ py px) c))

/-- The float result[c] of line 185 for the destination pixel (x, y). -/
def resultAt (obj : Image) (newWidth newHeight y x c : Int) : ℚ :=
  let gx := srcCoord x newWidth obj.width_
  let gy := srcCoord y newHeight obj.height_
  let gxi := truncToInt gx
  let gyi := truncToInt gy
  BicubicInterpolate (sample obj gxi gyi c) (f32 (gx - f32 gxi)) (f32 (gy - f32 gyi))

/-- The value stored by lines 189-191 for channel c. -/
def storedAt (obj : Image) (newWidth newHeight y x c : Int) : Byte :=
  toByte (min (max (truncToInt (resultAt obj newWidth newHeight y x c)) 0) 255)

/-- One iteration of the inner loop of Resize (lines 170-191). -/
def resizePixel (obj : Image) (newWidth newHeight y : Int) (newPixels : List Byte)
    (x : Nat) : List Byte :=
  let destIndex := pixelIndex newWidth y x
  let m0 := writeByte newPixels destIndex (storedAt obj newWidth newHeight y x 0)
  let m1 := writeByte m0 (iadd destIndex 1) (storedAt obj newWidth newHeight y x 1)
  writeByte m1 (iadd destIndex 2) (storedAt obj newWidth newHeight y x 2)

/-- One iteration of the outer loop of Resize (lines 169-192). -/
def resizeRow (obj : Image) (newWidth newHeight : Int) (newPixels : List Byte)
    (y : Nat) : List Byte :=
  (List.range newWidth.toNat).foldl (resizePixel obj newWidth newHeight y) newPixels

/-- The method Resize (lines 150-203); heightRatio is none when the second
argument is missing or not a number. -/
def Resize (hp : Heap) (obj : Image) (widthRatio : ℚ) (heightRatio : Option ℚ) :
    Except Exception Image :=
  let hr := heightRatio.getD widthRatio
  let newWidth := newDim obj.width_ widthRatio
  let newHeight := newDim obj.height_ hr
  match malloc hp (toSizeT (imul (imul newWidth newHeight) 3)) with
  | none => .error .allocResized
  | some newPixels =>
    .ok { width_ := newWidth, height_ := newHeight,
          pixels_ := some ((List.range newHeight.toNat).foldl
            (resizeRow obj newWidth newHeight) newPixels) }

/-! ## Draw -/

/-- The blend of one channel (lines 341-343): alpha is a float and both
summands are float products. -/
def blend (dest src : Byte) (alpha : ℚ) : Byte :=
  castUChar (f32 (f32 (byteQ dest * f32 (1 - alpha)) + f32 (byteQ src * alpha)))

/-- The body of the inner loop of Draw (lines 330-345) for the source pixel
(i, j). -/
def drawPixel (obj other : Image) (src : List Byte) (x y : Int) (j : Int)
    (dest : List Byte) (i : Nat) : List Byte :=
  let destX := iadd x i
  let destY := iadd y j
  if 0 ≤ destX ∧ destX < obj.width_ ∧ 0 ≤ destY ∧ destY < obj.height_ then
    let destIndex := pixelIndex obj.width_ destY destX
    let srcIndex := pixelIndex other.width_ j i
    let alpha := f32 (byteQ (readByte src (iadd srcIndex 2)) / 255)
    [0, 1, 2].foldl (fun (mem : List Byte) (c : Int) =>
      writeByte mem (iadd destIndex c)
        (blend (readByte mem (iadd destIndex c)) (readByte src (iadd srcIndex c)) alpha)) dest
  else dest

/-- One iteration of the outer loop of Draw (lines 329-346). -/
def drawRow (obj other : Image) (src : List Byte) (x y : Int) (dest : List Byte)
    (j : Nat) : List Byte :=
  (List.range other.width_.toNat).foldl (drawPixel obj other src x y j) dest

/-- The method Draw (lines 316-349) on two distinct objects: obj is the
receiver, other the image drawn onto it. -/
def Draw (obj other : Image) (x y : Int) : Except Exception Image :=
  match obj.pixels_, other.pixels_ with
  | some dest, some src =>
    .ok { obj with pixels_ := some ((List.range other.height_.toNat).foldl
            (drawRow obj other src x y) dest) }
  | _, _ => .error .noData

/-! ## The data model and the predicates of the specification -/

/-- A buffer with storage as the data model describes it: width and height are
non-negative ints, the byte count width * height * 3 is an int as well, and
pixels_ is an allocated block of exactly that many bytes. -/
def HasStorage (img : Image) : Prop :=
  0 ≤ img.width_ ∧ img.width_ ≤ INT_MAX ∧ 0 ≤ img.height_ ∧ img.height_ ≤ INT_MAX ∧
  img.width_ * img.height_ * 3 ≤ INT_MAX ∧
  img.pixels_.map List.length = some (img.width_ * img.height_ * 3).toNat

instance (img : Image) : Decidable (HasStorage img) := by
  unfold HasStorage; infer_instance

/-- Every pixel (i, j) of the image has the blue byte v, the blue byte being
the one Draw reads at srcIndex + 2 to form alpha. -/
def blueIs (other : Image) (v : Byte) : Prop :=
  ∀ j < other.height_.toNat, ∀ i < other.width_.toNat,
    readByte (other.pixels_.getD []) (iadd (pixelIndex other.width_ j i) 2) = v

instance (other : Image) (v : Byte) : Decidable (blueIs other v) := by
  unfold blueIs; infer_instance

/-- The pixel (dx, dy) lies in the rectangle covered by a source of the given
size drawn at offset (x, y). -/
def inOverlap (x y srcWidth srcHeight dx dy : Int) : Prop :=
  x ≤ dx ∧ dx < x + srcWidth ∧ y ≤ dy ∧ dy < y + srcHeight

/-- The invariant of the data model (section 3 of the specification). -/
def DataModel (img : Image) : Prop :=
  0 ≤ img.width_ ∧ 0 ≤ img.height_ ∧
  ((img.pixels_ = none ∧ img.width_ = 0 ∧ img.height_ = 0) ∨
    img.pixels_.map (fun mem => (mem.length : Int)) = some (img.width_ * img.height_ * 3))

instance (img : Image) : Decidable (DataModel img) := by
  unfold DataModel; infer_instance

/-- The object after a call: the new state when the call returned, the old one
when it threw. -/
def after (r : Except Exception Image) (old : Image) : Image :=
  match r with
  | .ok img => img
  | .error _ => old

/-- The constructor arguments are ints. -/
def Args.IsInt : Args → Prop
  | .size n => INT_MIN ≤ n ∧ n ≤ INT_MAX
  | .widthHeight w h => INT_MIN ≤ w ∧ w ≤ INT_MAX ∧ INT_MIN ≤ h ∧ h ≤ INT_MAX
  | .other => True

/-- The states reachable from the constructor by Resize and Draw calls,
successful or not, with arbitrary arguments. -/
inductive Reachable : Image → Prop where
  | new (hp : Heap) (args : Args) (img : Image) :
      Args.IsInt args → New hp args = .ok img → Reachable img
  | resize (hp : Heap) (obj : Image) (widthRatio : ℚ) (heightRatio : Option ℚ) :
      Reachable obj → Reachable (after (Resize hp obj widthRatio heightRatio) obj)
  | draw (obj other : Image) (x y : Int) :
      Reachable obj → Reachable other → Reachable (after (Draw obj other x y) obj)

/-- Constructor arguments that are non-negative ints whose byte count
width * height * 3 is an int. -/
def Args.InRange : Args → Prop
  | .size n => 0 ≤ n ∧ n ≤ INT_MAX ∧ n * n * 3 ≤ INT_MAX
  | .widthHeight w h => 0 ≤ w ∧ w ≤ INT_MAX ∧ 0 ≤ h ∧ h ≤ INT_MAX ∧ w * h * 3 ≤ INT_MAX
  | .other => True

/-- A Resize call whose target dimensions are non-negative and whose byte count
newWidth * newHeight * 3 is an int. -/
def ResizeInRange (obj : Image) (widthRatio : ℚ) (heightRatio : Option ℚ) : Prop :=
  0 ≤ newDim obj.width_ widthRatio ∧
  0 ≤ newDim obj.height_ (heightRatio.getD widthRatio) ∧
  newDim obj.width_ widthRatio * newDim obj.height_ (heightRatio.getD widthRatio) * 3 ≤ INT_MAX

/-- The states reachable by constructor calls with arguments in range, Resize
calls in range and arbitrary Draw calls. -/
inductive ReachableInRange : Image → Prop where
  | new (hp : Heap) (args : Args) (img : Image) :
      Args.InRange args → New hp args = .ok img → ReachableInRange img
  | resize (hp : Heap) (obj : Image) (widthRatio : ℚ) (heightRatio : Option ℚ) :
      ReachableInRange obj → ResizeInRange obj widthRatio heightRatio →
      ReachableInRange (after (Resize hp obj widthRatio heightRatio) obj)
  | draw (obj other : Image) (x y : Int) :
      ReachableInRange obj → ReachableInRange other →
      ReachableInRange (after (Draw obj other x y) obj)

/-! ## Concrete images used below -/

/-- The byte of channel c (0 red, 1 green, otherwise blue) of the colour (r, g, b). -/
def channel (r g b : Byte) (c : Nat) : Byte := if c = 0 then r else if c = 1 then g else b

/-- An allocated width x height image whose pixels all equal (r, g, b): byte k
of the block holds channel k mod 3. -/
def solid (width height : Nat) (r g b : Byte) : Image :=
  { width_ := width, height_ := height,
    pixels_ := some ((List.range (width * height * 3)).map (fun k => channel r g b (k % 3))) }

/-- A heap on which every request succeeds and fresh blocks hold the byte 170. -/
def heapOk : Heap := { avail := fun _ => true, junk := fun _ => 170 }

/-- A heap on which every request fails. -/
def heapFull : Heap := { avail := fun _ => false, junk := fun _ => 0 }


/-! ## Facts about the machine arithmetic -/

attribute [irreducible] wrap32

theorem wrap32_of_int (z : Int) (h1 : INT_MIN ≤ z) (h2 : z ≤ INT_MAX) : wrap32 z = z := by
  unfold wrap32 INT_MIN INT_MAX at *
  omega

theorem normUp_spec (f n : Nat) : ∀ d e : Nat, d ≤ n →
    ∃ a, normUp f n d e = (d * 2 ^ a, e + a) ∧ d * 2 ^ a ≤ n := by
  induction f with
  | zero => intro d e h; exact ⟨0, by simp [normUp], by simpa using h⟩
  | succ f ih =>
    intro d e h
    unfold normUp
    split_ifs with h2
    · obtain ⟨a, ha, hle⟩ := ih (2 * d) (e + 1) h2
      refine ⟨a + 1, ?_, ?_⟩
      · rw [ha]; simp [pow_succ]; constructor <;> ring
      · calc d * 2 ^ (a + 1) = 2 * d * 2 ^ a := by ring
          _ ≤ n := hle
    · exact ⟨0, by simp, by simpa using h⟩

theorem roundNearestEven_of_dvd (k D : Nat) (hD : 0 < D) : roundNearestEven (k * D) D = k := by
  unfold roundNearestEven
  simp [Nat.mul_div_cancel _ hD, hD]

theorem roundPrec_zero (p : Nat) : roundPrec p 0 = 0 := by
  simp [roundPrec]

theorem roundPrec_natCast (p n : Nat) (h : n < 2 ^ p) : roundPrec p (n : ℚ) = n := by
  unfold roundPrec
  simp only [Rat.num_natCast, Int.natAbs_ofNat, Rat.den_natCast]
  split_ifs with h0 hneg
  · simp [h0]
  · omega
  · have hn : 1 ≤ n := Nat.one_le_iff_ne_zero.mpr h0
    obtain ⟨a, ha, hle⟩ := normUp_spec n n 1 0 hn
    have hdn : normDown 1 n 1 0 = (n, 0) := by
      unfold normDown; simp; omega
    rw [ha, hdn]
    simp only [one_mul, zero_add, pow_zero] at hle ⊢
    have hap : a ≤ p - 1 := by
      have : 2 ^ a < 2 ^ p := lt_of_le_of_lt hle h
      have := (Nat.pow_lt_pow_iff_right (a := 2) (by norm_num)).mp this
      omega
    have hsplit : n * 2 ^ (p - 1) = (n * 2 ^ (p - 1 - a)) * 2 ^ a := by
      rw [mul_assoc, ← pow_add]; congr 2; omega
    rw [hsplit, roundNearestEven_of_dvd _ _ (by positivity), ← hsplit]
    push_cast
    field_simp

theorem roundPrec_neg (p : Nat) (q : ℚ) : roundPrec p (-q) = - roundPrec p q := by
  unfold roundPrec
  simp only [Rat.num_neg_eq_neg_num, Int.natAbs_neg, Rat.neg_den]  
  by_cases h0 : q.num.natAbs = 0
  · simp [h0]
  · simp only [h0, if_false]
    have : q.num ≠ 0 := by simpa using h0
    rcases lt_trichotomy q.num 0 with h | h | h
    · simp [h, not_lt.mpr (le_of_lt h)]
    · exact absurd h this
    · simp [h, not_lt.mpr (le_of_lt h)]

theorem roundPrec_intCast (p : Nat) (z : Int) (h : z.natAbs < 2 ^ p) : roundPrec p (z : ℚ) = z := by
  obtain ⟨n, rfl | rfl⟩ := Int.eq_nat_or_neg z
  · simp only [Int.natAbs_ofNat] at h
    simpa using roundPrec_natCast p n h
  · simp only [Int.natAbs_neg, Int.natAbs_ofNat] at h
    push_cast
    rw [roundPrec_neg, roundPrec_natCast p n h]

theorem roundPrec_nonneg (p : Nat) (q : ℚ) (h : 0 ≤ q) : 0 ≤ roundPrec p q := by
  unfold roundPrec
  simp only
  split_ifs with h0 hneg
  · exact le_refl _
  · exact absurd (Rat.num_nonneg.mpr h) (not_le.mpr hneg)
  · positivity

theorem roundPrec_nonpos (p : Nat) (q : ℚ) (h : q ≤ 0) : roundPrec p q ≤ 0 := by
  have := roundPrec_nonneg p (-q) (by linarith)
  rw [roundPrec_neg] at this
  linarith

/-- The rounding agrees with IEEE-754 on familiar values: 0.1 as a float and as a
double, -1/3 as a float, and the two ties 2^24 + 1 and 2^24 + 3, which go to the
even significand. -/
theorem roundPrec_known_values :
    f32 (1 / 10) = 13421773 / 2 ^ 27 ∧ f64 (1 / 10) = 3602879701896397 / 2 ^ 55 ∧
    f32 (-1 / 3) = -11184811 / 2 ^ 25 ∧ f32 16777217 = 16777216 ∧
    f32 16777219 = 16777220 := by
  decide!

theorem truncQ_intCast (z : Int) : truncQ (z : ℚ) = z := by
  simp [truncQ]

theorem truncQ_nonpos (q : ℚ) (h : q ≤ 0) : truncQ q ≤ 0 := by
  unfold truncQ
  have hn : q.num ≤ 0 := Rat.num_nonpos.mpr h
  obtain ⟨k, hk⟩ := Int.exists_eq_neg_ofNat hn
  rw [hk, Int.neg_tdiv]
  have : 0 ≤ (k : Int).tdiv q.den := Int.tdiv_nonneg (by omega) (Int.ofNat_nonneg _)
  omega

theorem truncToInt_intCast (z : Int) (h1 : INT_MIN ≤ z) (h2 : z ≤ INT_MAX) :
    truncToInt (z : ℚ) = z := by
  simp [truncToInt, truncQ_intCast, h1, h2]

theorem truncToInt_nonpos (q : ℚ) (h : q ≤ 0) : truncToInt q ≤ 0 := by
  unfold truncToInt
  split_ifs
  · exact truncQ_nonpos q h
  · decide

theorem f64_intCast (z : Int) (h : z.natAbs < 2 ^ 53) : f64 (z : ℚ) = z :=
  roundPrec_intCast 53 z h

theorem f32_intCast (z : Int) (h : z.natAbs < 2 ^ 24) : f32 (z : ℚ) = z :=
  roundPrec_intCast 24 z h

theorem byteQ_eq_intCast (b : Byte) : byteQ b = (((b.val : Nat) : Int) : ℚ) := by
  simp [byteQ]

theorem toByte_val (b : Byte) : toByte ((b.val : Nat) : Int) = b := by
  unfold toByte
  have h : (((b.val : Nat) : Int) % 256).toNat = b.val := by
    have := b.isLt
    omega
  rw [h]
  apply Fin.ext
  simp [Fin.ofNat, Nat.mod_eq_of_lt b.isLt]

theorem castUChar_byteQ (b : Byte) : castUChar (byteQ b) = b := by
  unfold castUChar
  rw [byteQ_eq_intCast, truncQ_intCast, toByte_val]

/-- With alpha = 0 the blend returns the destination byte. -/
theorem blend_zero (d s : Byte) : blend d s 0 = d := by
  unfold blend
  have h1 : f32 (1 - 0) = 1 := by
    have := f32_intCast 1 (by decide)
    simpa using this
  have hd : f32 (byteQ d) = byteQ d := by
    rw [byteQ_eq_intCast]
    exact f32_intCast _ (by have := d.isLt; omega)
  have h0 : f32 0 = 0 := roundPrec_zero 24
  rw [h1, mul_one, mul_zero, h0, add_zero, hd, hd, castUChar_byteQ]

/-- With alpha = 1 the blend returns the source byte. -/
theorem blend_one (d s : Byte) : blend d s 1 = s := by
  unfold blend
  have hs : f32 (byteQ s) = byteQ s := by
    rw [byteQ_eq_intCast]
    exact f32_intCast _ (by have := s.isLt; omega)
  have h0 : f32 0 = 0 := roundPrec_zero 24
  rw [sub_self, h0, mul_zero, h0, mul_one, zero_add, hs, hs, castUChar_byteQ]

theorem alpha_zero : f32 (byteQ 0 / 255) = 0 := by
  simp [byteQ, f32, roundPrec_zero]

theorem alpha_full : f32 (byteQ 255 / 255) = 1 := by
  have h : byteQ 255 / 255 = ((1 : Int) : ℚ) := by
    unfold byteQ
    decide!
  rw [h]
  have := f32_intCast 1 (by decide)
  simpa using this

/-! ## Facts about memory blocks and loops -/

theorem length_writeByte (mem : List Byte) (i : Int) (v : Byte) :
    (writeByte mem i v).length = mem.length := by
  unfold writeByte
  split_ifs <;> simp

theorem writeByte_readByte (mem : List Byte) (i : Int) : writeByte mem i (readByte mem i) = mem := by
  unfold writeByte readByte
  split_ifs with h
  · by_cases hl : i.toNat < mem.length
    · rw [List.getD_eq_getElem _ _ hl]
      apply List.ext_getElem (by simp)
      intro n h1 h2
      rw [List.getElem_set]
      split_ifs with he
      · subst he; rfl
      · rfl
    · exact List.set_eq_of_length_le (by omega)
  · rfl

theorem readByte_writeByte_ne (mem : List Byte) (i k : Int) (v : Byte) (h : i ≠ k) :
    readByte (writeByte mem i v) k = readByte mem k := by
  unfold writeByte readByte
  by_cases hi : 0 ≤ i
  · by_cases hk : 0 ≤ k
    · have hne : i.toNat ≠ k.toNat := by omega
      simp [hi, hk, List.getD_eq_getElem?_getD, List.getElem?_set, hne]
    · simp [hi, hk]
  · simp [hi]

theorem getD_writeByte (mem : List Byte) (i k : Nat) (v : Byte) :
    (writeByte mem (i : Int) v).getD k 0 = if i = k ∧ i < mem.length then v else mem.getD k 0 := by
  unfold writeByte
  simp only [Int.ofNat_nonneg, if_true, Int.toNat_ofNat]
  rw [List.getD_eq_getElem?_getD, List.getElem?_set, List.getD_eq_getElem?_getD]
  by_cases h1 : i = k
  · subst h1
    by_cases h2 : i < mem.length
    · simp [h2]
    · have hnone : mem[i]? = none := List.getElem?_eq_none (by omega)
      simp [h2, hnone]
  · simp [h1]

/-- An invariant indexed by the loop counter holds after a counted loop. -/
theorem foldl_range_inv {β : Type} (P : Nat → β → Prop) (f : β → Nat → β) (N : Nat) (b : β)
    (h0 : P 0 b) (hs : ∀ n b, n < N → P n b → P (n + 1) (f b n)) :
    P N ((List.range N).foldl f b) := by
  induction N with
  | zero => simpa using h0
  | succ N ih =>
    rw [List.range_succ, List.foldl_append]
    simp only [List.foldl_cons, List.foldl_nil]
    exact hs N _ (Nat.lt_succ_self N) (ih (fun n b hn hp => hs n b (Nat.lt_succ_of_lt hn) hp))

/-- Three writes per pixel in raster order fill a block of W * H * 3 bytes with
the values g. -/
theorem raster_fill (g : Nat → Byte) (W H : Nat) (F : List Byte → Nat → List Byte)
    (G : Nat → List Byte → Nat → List Byte)
    (hF : ∀ mem y, F mem y = (List.range W).foldl (G y) mem)
    (hG : ∀ mem y x, y < H → x < W → mem.length = W * H * 3 →
      G y mem x = writeByte (writeByte (writeByte mem (((y * W + x) * 3 : Nat) : Int)
          (g ((y * W + x) * 3))) (((y * W + x) * 3 + 1 : Nat) : Int) (g ((y * W + x) * 3 + 1)))
        (((y * W + x) * 3 + 2 : Nat) : Int) (g ((y * W + x) * 3 + 2)))
    (mem : List Byte) (hlen : mem.length = W * H * 3) :
    (List.range H).foldl F mem = (List.range (W * H * 3)).map g := by
  have key := foldl_range_inv
    (fun y (m : List Byte) => m.length = W * H * 3 ∧ ∀ k, k < (y * W) * 3 → m.getD k 0 = g k)
    F H mem ⟨hlen, by intro k hk; simp at hk⟩ ?_
  · obtain ⟨hl, hk⟩ := key
    apply List.ext_getElem
    · simp [hl]
    · intro n h1 h2
      have hn : n < (H * W) * 3 := by
        rw [hl] at h1
        calc n < W * H * 3 := h1
          _ = H * W * 3 := by ring
      have := hk n hn
      rw [List.getD_eq_getElem _ _ h1] at this
      simp [this]
  · intro y m hy ⟨hl, hk⟩
    rw [hF]
    have inner := foldl_range_inv
      (fun x (m : List Byte) => m.length = W * H * 3 ∧
        ∀ k, k < (y * W + x) * 3 → m.getD k 0 = g k)
      (G y) W m ⟨hl, by simpa using hk⟩ ?_
    · obtain ⟨hl2, hk2⟩ := inner
      refine ⟨hl2, ?_⟩
      intro k hk3
      apply hk2
      calc k < (y + 1) * W * 3 := hk3
        _ = (y * W + W) * 3 := by ring
    · intro x m2 hx ⟨hl2, hk2⟩
      rw [hG m2 y x hy hx hl2]
      have hbound : (y * W + x) * 3 + 2 < W * H * 3 := by
        have h1 : y * W + x + 1 ≤ (y + 1) * W := by
          have : (y + 1) * W = y * W + W := by ring
          omega
        have h2 : (y + 1) * W ≤ H * W := Nat.mul_le_mul_right W hy
        have h3 : W * H = H * W := Nat.mul_comm W H
        omega
      refine ⟨by simp [length_writeByte, hl2], ?_⟩
      intro k hk3
      rw [getD_writeByte, getD_writeByte, getD_writeByte]
      simp only [length_writeByte, hl2]
      by_cases c2 : (y * W + x) * 3 + 2 = k
      · subst c2
        simp [hbound]
      · by_cases c1 : (y * W + x) * 3 + 1 = k
        · have hb1 : (y * W + x) * 3 + 1 < W * H * 3 := by omega
          subst c1
          simp [hb1]
        · by_cases c0 : (y * W + x) * 3 = k
          · have hb0 : (y * W + x) * 3 < W * H * 3 := by omega
            subst c0
            simp [hb0]
          · simp only [c2, c1, c0, false_and, if_false]
            apply hk2
            omega

/-! ## Facts about int indices -/

/-- Inside a block whose byte count is an int, the index expression of the
source does not wrap. -/
theorem pixelIndex_eq (W H row col : Int) (hW : 0 ≤ W) (h3 : W * H * 3 ≤ INT_MAX)
    (hr0 : 0 ≤ row) (hr : row < H) (hc0 : 0 ≤ col) (hc : col < W) :
    pixelIndex W row col = (row * W + col) * 3 ∧ 0 ≤ row * W + col ∧
      (row * W + col) * 3 + 3 ≤ W * H * 3 := by
  have a : 0 ≤ row * W := mul_nonneg hr0 hW
  have b : (row + 1) * W ≤ H * W := mul_le_mul_of_nonneg_right (by omega) hW
  have b2 : (row + 1) * W = row * W + W := by ring
  have b3 : H * W = W * H := by ring
  rw [b2, b3] at b
  unfold pixelIndex imul iadd wrap32
  unfold INT_MAX at h3
  generalize row * W = p at *
  generalize W * H = q at *
  refine ⟨?_, by omega, by omega⟩
  have e1 : (p + 2147483648) % 4294967296 - 2147483648 = p := by omega
  rw [e1]
  have e2 : (p + col + 2147483648) % 4294967296 - 2147483648 = p + col := by omega
  rw [e2]
  omega

theorem pixelIndex_natCast (W H y x : Nat) (h3 : ((W : Int) * H * 3) ≤ INT_MAX)
    (hy : y < H) (hx : x < W) :
    pixelIndex (W : Int) (y : Int) (x : Int) = (((y * W + x) * 3 : Nat) : Int) := by
  have := (pixelIndex_eq W H y x (by omega) h3 (by omega) (by omega) (by omega) (by omega)).1
  rw [this]
  push_cast
  ring

theorem natIndex_bound (W H y x : Nat) (hy : y < H) (hx : x < W) :
    (y * W + x) * 3 + 3 ≤ W * H * 3 := by
  have h1 : (y + 1) * W = y * W + W := by ring
  have h2 : (y + 1) * W ≤ H * W := Nat.mul_le_mul_right W hy
  have h3 : W * H = H * W := Nat.mul_comm W H
  omega

/-- Two pixels of one image with the same raster number are the same pixel. -/
theorem raster_inj (W r1 c1 r2 c2 : Int) (h1 : 0 ≤ c1) (h2 : c1 < W) (h3 : 0 ≤ c2) (h4 : c2 < W)
    (h : r1 * W + c1 = r2 * W + c2) : r1 = r2 ∧ c1 = c2 := by
  have hr : r1 = r2 := by
    rcases lt_trichotomy r1 r2 with hlt | heq | hgt
    · exfalso
      have : (r1 + 1) * W ≤ r2 * W := mul_le_mul_of_nonneg_right (by omega) (by omega)
      have e : (r1 + 1) * W = r1 * W + W := by ring
      rw [e] at this
      omega
    · exact heq
    · exfalso
      have : (r2 + 1) * W ≤ r1 * W := mul_le_mul_of_nonneg_right (by omega) (by omega)
      have e : (r2 + 1) * W = r2 * W + W := by ring
      rw [e] at this
      omega
  subst hr
  exact ⟨rfl, by omega⟩

theorem iadd_small (a c : Int) (h0 : 0 ≤ a) (hc0 : 0 ≤ c) (h : a + c ≤ INT_MAX) :
    iadd a c = a + c := by
  unfold iadd wrap32
  unfold INT_MAX at h
  omega

/-- When the wrapped sum of an int and a loop counter is non-negative, it is the
true sum. -/
theorem iadd_offset (x : Int) (i : Int) (hx : INT_MIN ≤ x) (hx2 : x ≤ INT_MAX) (hi : 0 ≤ i)
    (hi2 : i ≤ INT_MAX) (h : 0 ≤ iadd x i) : iadd x i = x + i := by
  unfold iadd wrap32 INT_MIN INT_MAX at *
  omega

/-! ## Facts about Draw -/

theorem Draw_allocated (obj other : Image) (dest src : List Byte) (x y : Int)
    (h1 : obj.pixels_ = some dest) (h2 : other.pixels_ = some src) :
    Draw obj other x y = .ok { obj with pixels_ := some ((List.range other.height_.toNat).foldl
      (drawRow obj other src x y) dest) } := by
  simp [Draw, h1, h2]

theorem Draw_unallocated (obj other : Image) (x y : Int)
    (h : obj.pixels_ = none ∨ other.pixels_ = none) : Draw obj other x y = .error .noData := by
  unfold Draw
  rcases h with h | h
  · rw [h]
  · rw [h]
    cases obj.pixels_ <;> rfl

theorem drawPixel_unfold (obj other : Image) (src : List Byte) (x y j : Int) (dest : List Byte)
    (i : Nat) (hb : 0 ≤ iadd x i ∧ iadd x i < obj.width_ ∧ 0 ≤ iadd y j ∧ iadd y j < obj.height_) :
    drawPixel obj other src x y j dest i =
      let d := pixelIndex obj.width_ (iadd y j) (iadd x i)
      let s := pixelIndex other.width_ j i
      let alpha := f32 (byteQ (readByte src (iadd s 2)) / 255)
      let m0 := writeByte dest (iadd d 0) (blend (readByte dest (iadd d 0)) (readByte src (iadd s 0)) alpha)
      let m1 := writeByte m0 (iadd d 1) (blend (readByte m0 (iadd d 1)) (readByte src (iadd s 1)) alpha)
      writeByte m1 (iadd d 2) (blend (readByte m1 (iadd d 2)) (readByte src (iadd s 2)) alpha) := by
  unfold drawPixel
  simp only [hb, and_self, if_true, List.foldl_cons, List.foldl_nil]

theorem drawPixel_length (obj other : Image) (src : List Byte) (x y j : Int) (dest : List Byte)
    (i : Nat) : (drawPixel obj other src x y j dest i).length = dest.length := by
  by_cases hb : 0 ≤ iadd x i ∧ iadd x i < obj.width_ ∧ 0 ≤ iadd y j ∧ iadd y j < obj.height_
  · rw [drawPixel_unfold _ _ _ _ _ _ _ _ hb]
    simp only [length_writeByte]
  · unfold drawPixel
    rw [if_neg hb]

theorem drawPixel_blue_zero (obj other : Image) (src : List Byte) (x y j : Int)
    (dest : List Byte) (i : Nat)
    (h : readByte src (iadd (pixelIndex other.width_ j i) 2) = 0) :
    drawPixel obj other src x y j dest i = dest := by
  by_cases hb : 0 ≤ iadd x i ∧ iadd x i < obj.width_ ∧ 0 ≤ iadd y j ∧ iadd y j < obj.height_
  · rw [drawPixel_unfold _ _ _ _ _ _ _ _ hb]
    simp only [h, alpha_zero, blend_zero, writeByte_readByte]
  · unfold drawPixel
    rw [if_neg hb]

theorem Draw_length (obj other : Image) (src : List Byte) (x y : Int) (dest : List Byte) :
    ((List.range other.height_.toNat).foldl (drawRow obj other src x y) dest).length =
      dest.length := by
  apply foldl_range_inv (fun _ (m : List Byte) => m.length = dest.length)
  · rfl
  · intro j m _ hm
    unfold drawRow
    apply foldl_range_inv (fun _ (m : List Byte) => m.length = dest.length)
    · exact hm
    · intro i m2 _ hm2
      rw [drawPixel_length, hm2]

/-- A byte of a destination pixel outside the overlap survives one source pixel. -/
theorem drawPixel_frame (obj other : Image) (src : List Byte) (x y : Int) (j i : Nat)
    (dest : List Byte) (hW : 0 ≤ obj.width_) (h3 : obj.width_ * obj.height_ * 3 ≤ INT_MAX)
    (hx : INT_MIN ≤ x ∧ x ≤ INT_MAX) (hy : INT_MIN ≤ y ∧ y ≤ INT_MAX)
    (hi : (i : Int) < other.width_) (hj : (j : Int) < other.height_)
    (hsw : other.width_ ≤ INT_MAX) (hsh : other.height_ ≤ INT_MAX)
    (dx dy c : Int) (hdx0 : 0 ≤ dx) (hdx : dx < obj.width_) (hc0 : 0 ≤ c) (hc : c < 3)
    (hout : ¬ inOverlap x y other.width_ other.height_ dx dy) :
    readByte (drawPixel obj other src x y j dest i) ((dy * obj.width_ + dx) * 3 + c) =
      readByte dest ((dy * obj.width_ + dx) * 3 + c) := by
  by_cases hb : 0 ≤ iadd x i ∧ iadd x i < obj.width_ ∧ 0 ≤ iadd y j ∧ iadd y j < obj.height_
  · rw [drawPixel_unfold _ _ _ _ _ _ _ _ hb]
    obtain ⟨b1, b2, b3, b4⟩ := hb
    obtain ⟨e, e0, e3⟩ := pixelIndex_eq obj.width_ obj.height_ (iadd y j) (iadd x i) hW h3 b3 b4 b1 b2
    have ex := iadd_offset x i hx.1 hx.2 (by omega) (by omega) b1
    have ey := iadd_offset y j hy.1 hy.2 (by omega) (by omega) b3
    have hne : dy * obj.width_ + dx ≠ iadd y j * obj.width_ + iadd x i := by
      intro heq
      obtain ⟨r1, r2⟩ := raster_inj obj.width_ dy dx (iadd y j) (iadd x i) hdx0 hdx b1 b2 heq
      apply hout
      unfold inOverlap
      omega
    simp only
    rw [e]
    have i0 := iadd_small ((iadd y j * obj.width_ + iadd x i) * 3) 0 (by omega) (by omega) (by omega)
    have i1 := iadd_small ((iadd y j * obj.width_ + iadd x i) * 3) 1 (by omega) (by omega) (by omega)
    have i2 := iadd_small ((iadd y j * obj.width_ + iadd x i) * 3) 2 (by omega) (by omega) (by omega)
    rw [i0, i1, i2]
    rw [readByte_writeByte_ne _ _ _ _ (by omega), readByte_writeByte_ne _ _ _ _ (by omega),
      readByte_writeByte_ne _ _ _ _ (by omega)]
  · unfold drawPixel
    rw [if_neg hb]

theorem readByte_natCast (mem : List Byte) (n : Nat) : readByte mem (n : Int) = mem.getD n 0 := by
  simp [readByte]

theorem map_getD_range (src : List Byte) (n : Nat) (h : src.length = n) :
    (List.range n).map (fun k => src.getD k 0) = src := by
  apply List.ext_getElem (by simp [h])
  intro k h1 h2
  rw [List.getElem_map, List.getElem_range, List.getD_eq_getElem _ _ h2]

/-- The three int indices of a pixel inside a block whose byte count is an int. -/
theorem pixel_indices (W H y x : Nat) (h3 : ((W : Int) * H * 3) ≤ INT_MAX) (hy : y < H)
    (hx : x < W) :
    iadd (pixelIndex (W : Int) (y : Int) (x : Int)) 0 = (((y * W + x) * 3 : Nat) : Int) ∧
    iadd (pixelIndex (W : Int) (y : Int) (x : Int)) 1 = (((y * W + x) * 3 + 1 : Nat) : Int) ∧
    iadd (pixelIndex (W : Int) (y : Int) (x : Int)) 2 = (((y * W + x) * 3 + 2 : Nat) : Int) := by
  rw [pixelIndex_natCast W H y x h3 hy hx]
  have hb := natIndex_bound W H y x hy hx
  have hb2 : (((W * H * 3 : Nat)) : Int) ≤ INT_MAX := by
    push_cast
    exact h3
  generalize (y * W + x) * 3 = n at *
  generalize W * H * 3 = m at *
  unfold iadd wrap32
  unfold INT_MAX at hb2
  refine ⟨?_, ?_, ?_⟩ <;> omega

/-- At offset (0, 0) on equal widths, a source pixel with blue 255 is copied. -/
theorem drawPixel_blue_full (obj other : Image) (src dest : List Byte) (W H y x : Nat)
    (hw : obj.width_ = W) (hh : obj.height_ = H) (hw2 : other.width_ = W)
    (h3 : ((W : Int) * H * 3) ≤ INT_MAX) (hy : y < H) (hx : x < W)
    (hblue : readByte src (iadd (pixelIndex W y x) 2) = 255) :
    drawPixel obj other src 0 0 y dest x =
      writeByte (writeByte (writeByte dest (((y * W + x) * 3 : Nat) : Int)
          (src.getD ((y * W + x) * 3) 0)) (((y * W + x) * 3 + 1 : Nat) : Int)
          (src.getD ((y * W + x) * 3 + 1) 0))
        (((y * W + x) * 3 + 2 : Nat) : Int) (src.getD ((y * W + x) * 3 + 2) 0) := by
  have hWmax : (W : Int) ≤ INT_MAX ∧ (H : Int) ≤ INT_MAX := by
    have a1 : (1 : Int) ≤ W := by omega
    have a2 : (1 : Int) ≤ H := by omega
    have a3 : (W : Int) * 1 ≤ W * H := mul_le_mul_of_nonneg_left a2 (by omega)
    have a4 : (1 : Int) * H ≤ W * H := mul_le_mul_of_nonneg_right a1 (by omega)
    generalize (W : Int) * H = q at *
    constructor <;> omega
  have ex : iadd 0 (x : Int) = x := by
    have := iadd_small 0 x (by omega) (by omega) (by omega)
    simpa using this
  have ey : iadd 0 (y : Int) = y := by
    have := iadd_small 0 y (by omega) (by omega) (by omega)
    simpa using this
  have hb : 0 ≤ iadd 0 (x : Int) ∧ iadd 0 (x : Int) < obj.width_ ∧ 0 ≤ iadd 0 (y : Int) ∧
      iadd 0 (y : Int) < obj.height_ := by
    rw [ex, ey, hw, hh]
    clear ex ey hblue h3
    omega
  rw [drawPixel_unfold _ _ _ _ _ _ _ _ hb]
  obtain ⟨i0, i1, i2⟩ := pixel_indices W H y x h3 hy hx
  have hblue2 : src.getD ((y * W + x) * 3 + 2) 0 = 255 := by
    rw [i2, readByte_natCast] at hblue
    exact hblue
  simp only [ex, ey, hw, hw2, i0, i1, i2, readByte_natCast, hblue2, alpha_full, blend_one]

/-- Draw never changes the width, the height or the size of the block. -/
theorem Draw_shape (obj other : Image) (x y : Int) (img : Image)
    (h : Draw obj other x y = .ok img) :
    img.width_ = obj.width_ ∧ img.height_ = obj.height_ ∧
      img.pixels_.map List.length = obj.pixels_.map List.length := by
  unfold Draw at h
  cases hd : obj.pixels_ with
  | none => simp [hd] at h
  | some dest =>
    cases hs : other.pixels_ with
    | none => simp [hd, hs] at h
    | some src =>
      simp only [hd, hs, Except.ok.injEq] at h
      subst h
      simp [Draw_length]

/-! ## The claims about Draw -/

/-- C2, as the code behaves: on a 2x2 destination filled with (10,20,30), drawing
at (0,0) a 2x2 source filled with (100,110,128), that is (100,110,120) with the
blue byte forced to 128, succeeds and leaves every destination pixel equal to
(55,65,79): the blue channel blends the source blue 128, not 120. -/
theorem Draw_end_to_end :
    Draw (solid 2 2 10 20 30) (solid 2 2 100 110 128) 0 0 = .ok (solid 2 2 55 65 79) := by
  decide!

/-- C2, refuted as stated: the destination pixels do not become (55,65,75). -/
theorem Draw_end_to_end_not_75 :
    Draw (solid 2 2 10 20 30) (solid 2 2 100 110 128) 0 0 ≠ .ok (solid 2 2 55 65 75) := by
  decide!

/-- C3: for a destination and a source with storage and an int offset (x, y),
Draw succeeds, keeps width, height and block size, and every byte of a
destination pixel (dx, dy) outside the rectangle of the source placed at
(x, y) keeps its value. -/
theorem Draw_clipped_frame (obj other : Image) (x y : Int) (hobj : HasStorage obj)
    (hother : HasStorage other) (hx : INT_MIN ≤ x ∧ x ≤ INT_MAX)
    (hy : INT_MIN ≤ y ∧ y ≤ INT_MAX) :
    ∃ dest mem, obj.pixels_ = some dest ∧
      Draw obj other x y = .ok { obj with pixels_ := some mem } ∧
      mem.length = dest.length ∧
      ∀ dx dy c : Int, 0 ≤ dx → dx < obj.width_ → 0 ≤ dy → dy < obj.height_ → 0 ≤ c → c < 3 →
        ¬ inOverlap x y other.width_ other.height_ dx dy →
        readByte mem ((dy * obj.width_ + dx) * 3 + c) =
          readByte dest ((dy * obj.width_ + dx) * 3 + c) := by
  obtain ⟨w0, w1, h0, h1, h3, hpx⟩ := hobj
  obtain ⟨sw0, sw1, sh0, sh1, sh3, hspx⟩ := hother
  cases hd : obj.pixels_ with
  | none => simp [hd] at hpx
  | some dest =>
    cases hs : other.pixels_ with
    | none => simp [hs] at hspx
    | some src =>
      refine ⟨dest, _, rfl, Draw_allocated obj other dest src x y hd hs, Draw_length _ _ _ _ _ _, ?_⟩
      intro dx dy c hdx0 hdx hdy0 hdy hc0 hc hout
      apply foldl_range_inv (fun _ (m : List Byte) =>
        readByte m ((dy * obj.width_ + dx) * 3 + c) = readByte dest ((dy * obj.width_ + dx) * 3 + c))
      · rfl
      · intro j m hj hm
        unfold drawRow
        apply foldl_range_inv (fun _ (m : List Byte) =>
          readByte m ((dy * obj.width_ + dx) * 3 + c) =
            readByte dest ((dy * obj.width_ + dx) * 3 + c))
        · exact hm
        · intro i m2 hi hm2
          rw [drawPixel_frame obj other src x y j i m2 w0 h3 hx hy (by omega) (by omega) sw1 sh1
            dx dy c hdx0 hdx hc0 hc hout]
          exact hm2

/-- C3 on the example of the specification: a 4x4 source drawn at (2,2) on a 4x4
destination leaves every byte of the pixels outside columns and rows 2..3
unchanged. -/
theorem Draw_clipped_frame_4x4 :
    ∃ dest mem, (solid 4 4 1 2 3).pixels_ = some dest ∧
      Draw (solid 4 4 1 2 3) (solid 4 4 200 100 255) 2 2 =
        .ok { solid 4 4 1 2 3 with pixels_ := some mem } ∧
      mem.length = dest.length ∧
      ∀ dx dy c : Int, 0 ≤ dx → dx < 4 → 0 ≤ dy → dy < 4 → 0 ≤ c → c < 3 →
        ¬ inOverlap 2 2 4 4 dx dy →
        readByte mem ((dy * 4 + dx) * 3 + c) = readByte dest ((dy * 4 + dx) * 3 + c) :=
  Draw_clipped_frame (solid 4 4 1 2 3) (solid 4 4 200 100 255) 2 2 (by decide) (by decide)
    (by decide) (by decide)

/-- C4: when every source pixel has blue byte 0, the destination after Draw, at
any offset and whether Draw returned or threw, is the destination before. -/
theorem Draw_blue_zero_unchanged (obj other : Image) (x y : Int) (hblue : blueIs other 0) :
    after (Draw obj other x y) obj = obj := by
  cases hd : obj.pixels_ with
  | none => rw [Draw_unallocated obj other x y (Or.inl hd)]; rfl
  | some dest =>
    cases hs : other.pixels_ with
    | none => rw [Draw_unallocated obj other x y (Or.inr hs)]; rfl
    | some src =>
      rw [Draw_allocated obj other dest src x y hd hs]
      have key : (List.range other.height_.toNat).foldl (drawRow obj other src x y) dest = dest := by
        apply foldl_range_inv (fun _ (m : List Byte) => m = dest)
        · rfl
        · intro j m hj hm
          unfold drawRow
          apply foldl_range_inv (fun _ (m : List Byte) => m = dest)
          · exact hm
          · intro i m2 hi hm2
            have hb := hblue j hj i hi
            rw [hs] at hb
            rw [drawPixel_blue_zero obj other src x y j m2 i hb]
            exact hm2
      rw [key]
      unfold after
      simp only
      cases obj
      simp only at hd
      rw [hd]

/-- C4 on an example: a 2x2 source with blue 0 drawn at (1,0) on a 2x2 image. -/
theorem Draw_blue_zero_unchanged_example :
    after (Draw (solid 2 2 10 20 30) (solid 2 2 100 110 0) 1 0) (solid 2 2 10 20 30) =
      solid 2 2 10 20 30 :=
  Draw_blue_zero_unchanged (solid 2 2 10 20 30) (solid 2 2 100 110 0) 1 0 (by decide!)

/-- C5: for two buffers with storage of equal width and height, the source
having blue byte 255 in every pixel, Draw at (0,0) succeeds and the destination
becomes byte for byte the source. -/
theorem Draw_blue_full_copies (obj other : Image) (hobj : HasStorage obj)
    (hother : HasStorage other) (hw : obj.width_ = other.width_)
    (hh : obj.height_ = other.height_) (hblue : blueIs other 255) :
    Draw obj other 0 0 = .ok other := by
  obtain ⟨w, h, px⟩ := obj
  obtain ⟨w2, h2, px2⟩ := other
  simp only at hw hh
  subst hw hh
  obtain ⟨w0, w1, h0, h1, h3, hpx⟩ := hobj
  obtain ⟨-, -, -, -, -, hspx⟩ := hother
  simp only at w0 w1 h0 h1 h3 hpx hspx
  obtain ⟨W, rfl⟩ := Int.eq_ofNat_of_zero_le w0
  obtain ⟨H, rfl⟩ := Int.eq_ofNat_of_zero_le h0
  cases px with
  | none => simp at hpx
  | some dest =>
    cases px2 with
    | none => simp at hspx
    | some src =>
      have hlen : dest.length = W * H * 3 := by
        have hpx2 : dest.length = ((W : Int) * H * 3).toNat := by simpa using hpx
        rw [hpx2]
        have : ((W : Int) * H * 3) = ((W * H * 3 : Nat) : Int) := by push_cast; ring
        rw [this, Int.toNat_ofNat]
      have hslen : src.length = W * H * 3 := by
        have hspx2 : src.length = ((W : Int) * H * 3).toNat := by simpa using hspx
        rw [hspx2]
        have : ((W : Int) * H * 3) = ((W * H * 3 : Nat) : Int) := by push_cast; ring
        rw [this, Int.toNat_ofNat]
      rw [Draw_allocated _ _ dest src 0 0 rfl rfl]
      simp only [Int.toNat_ofNat]
      have key := raster_fill (fun k => src.getD k 0) W H
        (drawRow ⟨W, H, some dest⟩ ⟨W, H, some src⟩ src 0 0)
        (fun y m x => drawPixel ⟨W, H, some dest⟩ ⟨W, H, some src⟩ src 0 0 y m x)
        (by intro m y; simp [drawRow])
        (by
          intro m y x hy hx _
          apply drawPixel_blue_full _ _ src m W H y x rfl rfl rfl h3 hy hx
          have := hblue y (by simpa using hy) x (by simpa using hx)
          simpa using this)
        dest hlen
      rw [key, map_getD_range src _ hslen]

/-- C5 on an example: 2x2 buffers, the source filled with (100,110,255). -/
theorem Draw_blue_full_copies_example :
    Draw (solid 2 2 10 20 30) (solid 2 2 100 110 255) 0 0 = .ok (solid 2 2 100 110 255) :=
  Draw_blue_full_copies (solid 2 2 10 20 30) (solid 2 2 100 110 255) (by decide) (by decide)
    (by decide) (by decide) (by decide!)

/-! ## Facts about malloc, memset and the constructor -/

theorem malloc_length (hp : Heap) (n : Nat) (mem : List Byte) (h : malloc hp n = some mem) :
    mem.length = n := by
  unfold malloc at h
  by_cases ha : hp.avail n = true
  · rw [if_pos ha] at h
    have e : (List.range n).map hp.junk = mem := Option.some.inj h
    rw [← e]
    simp
  · rw [if_neg ha] at h
    exact absurd h (by simp)

theorem malloc_of_avail (hp : Heap) (n : Nat) (h : hp.avail n = true) :
    malloc hp n = some ((List.range n).map hp.junk) := by
  unfold malloc
  rw [if_pos h]

theorem malloc_of_not_avail (hp : Heap) (n : Nat) (h : hp.avail n = false) :
    malloc hp n = none := by
  unfold malloc
  simp [h]

theorem memset_all (mem : List Byte) (v : Byte) (n : Nat) (h : mem.length = n) :
    memset mem v n = List.replicate n v := by
  unfold memset
  rw [h, Nat.min_self, List.drop_of_length_le (by omega), List.append_nil]

theorem toSizeT_of_int (z : Int) (h0 : 0 ≤ z) (h : z ≤ INT_MAX) : toSizeT z = z.toNat := by
  unfold toSizeT
  unfold INT_MAX at h
  omega

/-- The byte count of the source, when it is an int, is computed without wrapping. -/
theorem imul_size (w h : Int) (hw : 0 ≤ w) (hh : 0 ≤ h) (h3 : w * h * 3 ≤ INT_MAX) :
    imul (imul w h) 3 = w * h * 3 := by
  have p : 0 ≤ w * h := mul_nonneg hw hh
  unfold imul wrap32
  unfold INT_MAX at h3
  generalize w * h = q at *
  have e1 : (q + 2147483648) % 4294967296 - 2147483648 = q := by omega
  rw [e1]
  omega

theorem byteCount (w h : Int) (hw : 0 ≤ w) (hh : 0 ≤ h) (h3 : w * h * 3 ≤ INT_MAX) :
    toSizeT (imul (imul w h) 3) = (w * h * 3).toNat := by
  rw [imul_size w h hw hh h3]
  have p : 0 ≤ w * h := mul_nonneg hw hh
  exact toSizeT_of_int _ (by omega) h3

/-- A constructor call with arguments in range yields a zero-filled block of
exactly width * height * 3 bytes. -/
theorem New_widthHeight_in_range (hp : Heap) (w h : Int) (img : Image) (hw : 0 ≤ w)
    (hh : 0 ≤ h) (h3 : w * h * 3 ≤ INT_MAX) (hnew : New hp (.widthHeight w h) = .ok img) :
    img = ⟨w, h, some (List.replicate (w * h * 3).toNat 0)⟩ := by
  simp only [New] at hnew
  rw [byteCount w h hw hh h3] at hnew
  cases hm : malloc hp (w * h * 3).toNat with
  | none => simp [hm] at hnew
  | some mem =>
    simp only [hm, Except.ok.injEq] at hnew
    rw [← hnew, memset_all mem 0 _ (malloc_length hp _ mem hm)]

theorem New_size_in_range (hp : Heap) (n : Int) (img : Image) (hn : 0 ≤ n)
    (h3 : n * n * 3 ≤ INT_MAX) (hnew : New hp (.size n) = .ok img) :
    img = ⟨n, n, some (List.replicate (n * n * 3).toNat 0)⟩ := by
  simp only [New] at hnew
  rw [byteCount n n hn hn h3] at hnew
  cases hm : malloc hp (n * n * 3).toNat with
  | none => simp [hm] at hnew
  | some mem =>
    simp only [hm, Except.ok.injEq] at hnew
    rw [← hnew, memset_all mem 0 _ (malloc_length hp _ mem hm)]

/-! ## Facts about Resize -/

theorem Resize_eq (hp : Heap) (obj : Image) (widthRatio : ℚ) (heightRatio : Option ℚ) :
    Resize hp obj widthRatio heightRatio =
      match malloc hp (toSizeT (imul (imul (newDim obj.width_ widthRatio)
          (newDim obj.height_ (heightRatio.getD widthRatio))) 3)) with
      | none => .error .allocResized
      | some newPixels =>
        .ok { width_ := newDim obj.width_ widthRatio,
              height_ := newDim obj.height_ (heightRatio.getD widthRatio),
              pixels_ := some ((List.range (newDim obj.height_ (heightRatio.getD widthRatio)).toNat).foldl
                (resizeRow obj (newDim obj.width_ widthRatio)
                  (newDim obj.height_ (heightRatio.getD widthRatio))) newPixels) } := rfl

theorem resizePixel_length (obj : Image) (nw nh y : Int) (mem : List Byte) (x : Nat) :
    (resizePixel obj nw nh y mem x).length = mem.length := by
  simp only [resizePixel, length_writeByte]

theorem Resize_fold_length (obj : Image) (nw nh : Int) (mem : List Byte) :
    ((List.range nh.toNat).foldl (resizeRow obj nw nh) mem).length = mem.length := by
  apply foldl_range_inv (fun _ (m : List Byte) => m.length = mem.length)
  · rfl
  · intro y m _ hm
    unfold resizeRow
    apply foldl_range_inv (fun _ (m : List Byte) => m.length = mem.length)
    · exact hm
    · intro x m2 _ hm2
      rw [resizePixel_length, hm2]

/-- With a non-positive target width or height no pixel is computed. -/
theorem Resize_fold_empty (obj : Image) (nw nh : Int) (mem : List Byte) (h : nw ≤ 0 ∨ nh ≤ 0) :
    (List.range nh.toNat).foldl (resizeRow obj nw nh) mem = mem := by
  rcases h with h | h
  · apply foldl_range_inv (fun _ (m : List Byte) => m = mem)
    · rfl
    · intro y m _ hm
      unfold resizeRow
      rw [Int.toNat_of_nonpos h, hm]
      rfl
  · rw [Int.toNat_of_nonpos h]
    rfl

theorem f64_nonneg_intCast (dim : Int) (hd : 0 ≤ dim) : 0 ≤ f64 (dim : ℚ) :=
  roundPrec_nonneg 53 _ (by exact_mod_cast hd)

theorem newDim_nonpos (dim : Int) (ratio : ℚ) (hd : 0 ≤ dim) (hr : ratio ≤ 0) :
    newDim dim ratio ≤ 0 := by
  unfold newDim
  apply truncToInt_nonpos
  apply roundPrec_nonpos
  exact mul_nonpos_iff.mpr (Or.inl ⟨f64_nonneg_intCast dim hd, hr⟩)

theorem newDim_one (dim : Int) (h0 : 0 ≤ dim) (h1 : dim ≤ INT_MAX) : newDim dim 1 = dim := by
  unfold newDim
  have hn : dim.natAbs < 2 ^ 53 := by
    unfold INT_MAX at h1
    have e : (2 : Nat) ^ 53 = 9007199254740992 := by norm_num
    rw [e]
    omega
  have hf : f64 (dim : ℚ) = dim := f64_intCast dim hn
  rw [hf, mul_one, hf]
  exact truncToInt_intCast dim (by unfold INT_MIN; omega) h1

/-! ## Resize of a uniform image -/

theorem f64_byte_mul (k : Int) (b : Byte) (hk : k.natAbs ≤ 8) :
    f64 ((k : ℚ) * byteQ b) = (k : ℚ) * byteQ b := by
  rw [byteQ_eq_intCast]
  have e : ((k : ℚ) * (((b.val : Nat) : Int) : ℚ)) = ((k * ((b.val : Nat) : Int) : Int) : ℚ) := by
    push_cast
    ring
  rw [e]
  apply f64_intCast
  rw [Int.natAbs_mul, Int.natAbs_ofNat]
  have hb : b.val ≤ 255 := by
    have := b.isLt
    omega
  calc k.natAbs * b.val ≤ 8 * 255 := Nat.mul_le_mul hk hb
    _ < 2 ^ 53 := by norm_num

theorem f64_byte (b : Byte) : f64 (byteQ b) = byteQ b := by
  have h := f64_byte_mul 1 b (by decide)
  simpa using h

theorem f32_byte (b : Byte) : f32 (byteQ b) = byteQ b := by
  rw [byteQ_eq_intCast]
  exact f32_intCast _ (by have := b.isLt; omega)

/-- On four equal samples the cubic kernel returns the sample, exactly, for every
fractional offset. -/
theorem CubicInterpolate_const (b : Byte) (x : ℚ) :
    CubicInterpolate (fun _ => byteQ b) x = byteQ b := by
  have z32 : f32 0 = 0 := roundPrec_zero 24
  have z64 : f64 0 = 0 := roundPrec_zero 53
  have h2 : f64 (2 * byteQ b) = 2 * byteQ b := by
    have h := f64_byte_mul 2 b (by decide)
    simpa using h
  have h5 : f64 (5 * byteQ b) = 5 * byteQ b := by
    have h := f64_byte_mul 5 b (by decide)
    simpa using h
  have h4 : f64 (4 * byteQ b) = 4 * byteQ b := by
    have h := f64_byte_mul 4 b (by decide)
    simpa using h
  have h3 : f64 (2 * byteQ b - 5 * byteQ b) = -3 * byteQ b := by
    have e : 2 * byteQ b - 5 * byteQ b = ((-3 : Int) : ℚ) * byteQ b := by
      push_cast
      ring
    rw [e, f64_byte_mul (-3) b (by decide)]
    push_cast
    ring
  have h1 : f64 (-3 * byteQ b + 4 * byteQ b) = byteQ b := by
    have e : -3 * byteQ b + 4 * byteQ b = byteQ b := by ring
    rw [e, f64_byte]
  unfold CubicInterpolate
  simp only [sub_self, z32, mul_zero, z64, zero_add, add_zero, h2, h5, h4, h3, h1, f64_byte,
    f32_byte]

theorem BicubicInterpolate_const (b : Byte) (x y : ℚ) :
    BicubicInterpolate (fun _ _ => byteQ b) x y = byteQ b := by
  unfold BicubicInterpolate
  simp only [CubicInterpolate_const]

theorem clamp0_bounds (v hi : Int) (h : 0 ≤ hi) : 0 ≤ clamp0 v hi ∧ clamp0 v hi ≤ hi := by
  unfold clamp0
  exact ⟨le_min (le_max_right _ _) h, min_le_right _ _⟩

theorem isub_one (w : Int) (h1 : 1 ≤ w) (h2 : w ≤ INT_MAX) : isub w 1 = w - 1 := by
  unfold isub wrap32
  unfold INT_MAX at h2
  omega

/-- Both dimensions of a non-empty image whose byte count is an int are ints. -/
theorem dims_le (W H : Nat) (hW : 1 ≤ W) (hH : 1 ≤ H) (h3 : ((W : Int) * H * 3) ≤ INT_MAX) :
    (W : Int) ≤ INT_MAX ∧ (H : Int) ≤ INT_MAX := by
  have a1 : (1 : Int) ≤ W := by omega
  have a2 : (1 : Int) ≤ H := by omega
  have a3 : (W : Int) * 1 ≤ W * H := mul_le_mul_of_nonneg_left a2 (by omega)
  have a4 : (1 : Int) * H ≤ W * H := mul_le_mul_of_nonneg_right a1 (by omega)
  generalize (W : Int) * H = q at *
  constructor <;> omega

theorem readByte_solid (n : Nat) (r g b : Byte) (k : Nat) (h : k < n) :
    readByte ((List.range n).map (fun k => channel r g b (k % 3))) (k : Int) =
      channel r g b (k % 3) := by
  rw [readByte_natCast, List.getD_eq_getElem _ _ (by simpa using h)]
  simp

/-- Every sample gathered from a uniform image is the byte of its channel. -/
theorem sample_solid (W H : Nat) (r g b : Byte) (gxi gyi : Int) (c : Nat) (hc : c < 3)
    (hW : 1 ≤ W) (hH : 1 ≤ H) (h3 : ((W : Int) * H * 3) ≤ INT_MAX) (m n : Fin 4) :
    sample (solid W H r g b) gxi gyi c m n = byteQ (channel r g b c) := by
  obtain ⟨hWm, hHm⟩ := dims_le W H hW hH h3
  have sW : isub (W : Int) 1 = W - 1 := isub_one W (by omega) hWm
  have sH : isub (H : Int) 1 = H - 1 := isub_one H (by omega) hHm
  unfold sample
  simp only [solid, Option.getD_some]
  rw [sW, sH]
  obtain ⟨px0, px1⟩ := clamp0_bounds (iadd gxi ((m.val : Int) - 1)) ((W : Int) - 1) (by omega)
  obtain ⟨py0, py1⟩ := clamp0_bounds (iadd gyi ((n.val : Int) - 1)) ((H : Int) - 1) (by omega)
  generalize clamp0 (iadd gxi ((m.val : Int) - 1)) ((W : Int) - 1) = px at *
  generalize clamp0 (iadd gyi ((n.val : Int) - 1)) ((H : Int) - 1) = py at *
  clear sW sH hWm hHm
  obtain ⟨pxn, rfl⟩ := Int.eq_ofNat_of_zero_le px0
  obtain ⟨pyn, rfl⟩ := Int.eq_ofNat_of_zero_le py0
  have hx : pxn < W := by omega
  have hy : pyn < H := by omega
  obtain ⟨i0, i1, i2⟩ := pixel_indices W H pyn pxn h3 hy hx
  have hb := natIndex_bound W H pyn pxn hy hx
  clear px0 px1 py0 py1 h3
  have hc3 : c = 0 ∨ c = 1 ∨ c = 2 := by omega
  rcases hc3 with rfl | rfl | rfl
  · simp only [Nat.cast_zero]
    rw [i0, readByte_solid _ _ _ _ _ (by omega)]
    have e : (pyn * W + pxn) * 3 % 3 = 0 := by omega
    rw [e]
  · simp only [Nat.cast_one]
    rw [i1, readByte_solid _ _ _ _ _ (by omega)]
    have e : ((pyn * W + pxn) * 3 + 1) % 3 = 1 := by omega
    rw [e]
  · simp only [Nat.cast_ofNat]
    rw [i2, readByte_solid _ _ _ _ _ (by omega)]
    have e : ((pyn * W + pxn) * 3 + 2) % 3 = 2 := by omega
    rw [e]

/-- The byte stored for a channel of any destination pixel of a uniform image is
the byte of that channel. -/
theorem storedAt_solid (W H : Nat) (r g b : Byte) (nw nh y x : Int) (c : Nat) (hc : c < 3)
    (hW : 1 ≤ W) (hH : 1 ≤ H) (h3 : ((W : Int) * H * 3) ≤ INT_MAX) :
    storedAt (solid W H r g b) nw nh y x c = channel r g b c := by
  have hs : ∀ gxi gyi : Int, sample (solid W H r g b) gxi gyi c =
      fun _ _ => byteQ (channel r g b c) := by
    intro gxi gyi
    funext m n
    exact sample_solid W H r g b gxi gyi c hc hW hH h3 m n
  unfold storedAt resultAt
  simp only [hs, BicubicInterpolate_const]
  have hlt := (channel r g b c).isLt
  rw [byteQ_eq_intCast, truncToInt_intCast _ (by unfold INT_MIN; omega) (by unfold INT_MAX; omega),
    max_eq_left (by omega), min_eq_left (by omega), toByte_val]

theorem resizePixel_solid (W H : Nat) (r g b : Byte) (y x : Nat) (mem : List Byte) (hy : y < H)
    (hx : x < W) (hW : 1 ≤ W) (hH : 1 ≤ H) (h3 : ((W : Int) * H * 3) ≤ INT_MAX) :
    resizePixel (solid W H r g b) W H y mem x =
      writeByte (writeByte (writeByte mem (((y * W + x) * 3 : Nat) : Int) (channel r g b 0))
          (((y * W + x) * 3 + 1 : Nat) : Int) (channel r g b 1))
        (((y * W + x) * 3 + 2 : Nat) : Int) (channel r g b 2) := by
  have s0 := storedAt_solid W H r g b W H y x 0 (by omega) hW hH h3
  have s1 := storedAt_solid W H r g b W H y x 1 (by omega) hW hH h3
  have s2 := storedAt_solid W H r g b W H y x 2 (by omega) hW hH h3
  simp only [Nat.cast_zero, Nat.cast_one, Nat.cast_ofNat] at s0 s1 s2
  obtain ⟨-, i1, i2⟩ := pixel_indices W H y x h3 hy hx
  have i0 := pixelIndex_natCast W H y x h3 hy hx
  unfold resizePixel
  simp only [s0, s1, s2, i1, i2]
  rw [i0]

theorem solid_hasStorage (W H : Nat) (r g b : Byte) (h3 : ((W : Int) * H * 3) ≤ INT_MAX)
    (hW : (W : Int) ≤ INT_MAX) (hH : (H : Int) ≤ INT_MAX) : HasStorage (solid W H r g b) := by
  unfold HasStorage solid
  refine ⟨by simp, hW, by simp, hH, h3, ?_⟩
  have e : ((W : Int) * H * 3) = ((W * H * 3 : Nat) : Int) := by
    push_cast
    ring
  rw [e, Int.toNat_ofNat]
  simp

/-! ## The claim about Resize of a uniform image -/

/-- C6: for a buffer of width W >= 1 and height H >= 1 whose pixels all equal
(r, g, b), with a byte count that is an int, Resize with ratio 1.0 for both
axes (the height ratio given or defaulted), on a heap that can serve the
W * H * 3 bytes, succeeds and yields the same width, height and pixels. -/
theorem Resize_uniform_identity (hp : Heap) (W H : Nat) (r g b : Byte)
    (heightRatio : Option ℚ) (hW : 1 ≤ W) (hH : 1 ≤ H)
    (h3 : ((W : Int) * H * 3) ≤ INT_MAX) (hr : heightRatio.getD 1 = 1)
    (halloc : hp.avail (W * H * 3) = true) :
    Resize hp (solid W H r g b) 1 heightRatio = .ok (solid W H r g b) := by
  obtain ⟨hWm, hHm⟩ := dims_le W H hW hH h3
  rw [Resize_eq, hr]
  have ew : (solid W H r g b).width_ = W := rfl
  have eh : (solid W H r g b).height_ = H := rfl
  rw [ew, eh, newDim_one W (by omega) hWm, newDim_one H (by omega) hHm,
    byteCount W H (by omega) (by omega) h3]
  have e : ((W : Int) * H * 3).toNat = W * H * 3 := by
    have e2 : ((W : Int) * H * 3) = ((W * H * 3 : Nat) : Int) := by
      push_cast
      ring
    rw [e2, Int.toNat_ofNat]
  rw [e, malloc_of_avail hp _ halloc]
  simp only [Int.toNat_ofNat]
  have key := raster_fill (fun k => channel r g b (k % 3)) W H
    (resizeRow (solid W H r g b) W H)
    (fun y m x => resizePixel (solid W H r g b) W H y m x)
    (by intro m y; simp [resizeRow])
    (by
      intro m y x hy hx _
      beta_reduce
      rw [resizePixel_solid W H r g b y x m hy hx hW hH h3]
      have e0 : (y * W + x) * 3 % 3 = 0 := by omega
      have e1 : ((y * W + x) * 3 + 1) % 3 = 1 := by omega
      have e2 : ((y * W + x) * 3 + 2) % 3 = 2 := by omega
      simp only [e0, e1, e2])
    ((List.range (W * H * 3)).map hp.junk) (by simp)
  rw [key]
  rfl

/-- C6 on an example: a 3x2 image filled with (7,8,9), ratio 1.0 for both axes. -/
theorem Resize_uniform_identity_example :
    Resize heapOk (solid 3 2 7 8 9) 1 (some 1) = .ok (solid 3 2 7 8 9) :=
  Resize_uniform_identity heapOk 3 2 7 8 9 (some 1) (by decide) (by decide) (by decide) rfl rfl

/-! ## The claims about the constructor -/

/-- C7 at inputs whose byte count overflows int: create(1073741825, 4) computes
width * height * 3 as the int 12, so the image has width 1073741825 and height 4
but a block of 12 zero bytes, while w * h * 3 is 12884901900; likewise
create(2147483647) yields a 2147483647 x 2147483647 image of 3 bytes. -/
theorem New_byte_count_overflow :
    New heapOk (.widthHeight 1073741825 4) = .ok ⟨1073741825, 4, some (List.replicate 12 0)⟩ ∧
    (1073741825 : Int) * 4 * 3 = 12884901900 ∧
    New heapOk (.size 2147483647) = .ok ⟨2147483647, 2147483647, some (List.replicate 3 0)⟩ := by
  decide!

/-! ## The claims about Resize with a non-positive ratio -/

/-- C1, refuted as stated: on a 2x2 buffer with storage, Resize with ratio -1
does not fail: it returns success and the buffer becomes -2 x -2 with a fresh
block of 12 uninitialised bytes; with ratio 0 it returns success and the buffer
becomes 0 x 0 with an empty block. -/
theorem Resize_nonpositive_ratio_succeeds :
    HasStorage (solid 2 2 7 8 9) ∧
    Resize heapOk (solid 2 2 7 8 9) (-1) none = .ok ⟨-2, -2, some (List.replicate 12 170)⟩ ∧
    Resize heapOk (solid 2 2 7 8 9) 0 none = .ok ⟨0, 0, some []⟩ := by
  decide!

/-- C1, as the code behaves: for a buffer with storage and a width ratio or
height ratio <= 0, the target width or height is <= 0, no pixel is computed and
no argument is rejected; Resize asks malloc for the int newWidth * newHeight * 3
converted to size_t; when malloc fails Resize throws the allocation error and
the buffer is unchanged, when it succeeds Resize returns and the buffer becomes
newWidth x newHeight with the fresh, unwritten block. -/
theorem Resize_nonpositive_ratio (hp : Heap) (obj : Image) (widthRatio : ℚ)
    (heightRatio : Option ℚ) (hobj : HasStorage obj)
    (hr : widthRatio ≤ 0 ∨ heightRatio.getD widthRatio ≤ 0) :
    (newDim obj.width_ widthRatio ≤ 0 ∨
      newDim obj.height_ (heightRatio.getD widthRatio) ≤ 0) ∧
    Resize hp obj widthRatio heightRatio =
      (match malloc hp (toSizeT (imul (imul (newDim obj.width_ widthRatio)
          (newDim obj.height_ (heightRatio.getD widthRatio))) 3)) with
      | none => .error .allocResized
      | some newPixels =>
        .ok { width_ := newDim obj.width_ widthRatio,
              height_ := newDim obj.height_ (heightRatio.getD widthRatio),
              pixels_ := some newPixels }) ∧
    (malloc hp (toSizeT (imul (imul (newDim obj.width_ widthRatio)
        (newDim obj.height_ (heightRatio.getD widthRatio))) 3)) = none →
      after (Resize hp obj widthRatio heightRatio) obj = obj) := by
  obtain ⟨w0, -, h0, -, -, -⟩ := hobj
  have hdim : newDim obj.width_ widthRatio ≤ 0 ∨
      newDim obj.height_ (heightRatio.getD widthRatio) ≤ 0 := by
    rcases hr with h | h
    · exact Or.inl (newDim_nonpos _ _ w0 h)
    · exact Or.inr (newDim_nonpos _ _ h0 h)
  refine ⟨hdim, ?_, ?_⟩
  · rw [Resize_eq]
    cases malloc hp (toSizeT (imul (imul (newDim obj.width_ widthRatio)
        (newDim obj.height_ (heightRatio.getD widthRatio))) 3)) with
    | none => rfl
    | some mem =>
      simp only
      rw [Resize_fold_empty obj _ _ mem hdim]
  · intro hm
    rw [Resize_eq, hm]
    rfl

/-- C1 on an example: a 2x2 buffer and ratio -1 on a heap without memory: the
allocation error is thrown and the buffer is unchanged. -/
theorem Resize_nonpositive_ratio_example :
    after (Resize heapFull (solid 2 2 7 8 9) (-1) none) (solid 2 2 7 8 9) = solid 2 2 7 8 9 :=
  (Resize_nonpositive_ratio heapFull (solid 2 2 7 8 9) (-1) none (by decide)
    (Or.inl (by norm_num))).2.2 (by decide!)

/-! ## The claims about the storage check of Draw -/

/-- C8, refuted as stated: create(0) on a heap where malloc(0) returns a block
yields a 0x0 buffer with an (empty) allocation, and Draw with that buffer as
destination or as source returns success instead of throwing. -/
theorem Draw_accepts_empty_allocated :
    New heapOk (.size 0) = .ok ⟨0, 0, some []⟩ ∧
    New heapOk (.widthHeight 0 0) = .ok ⟨0, 0, some []⟩ ∧
    Draw ⟨0, 0, some []⟩ (solid 1 1 1 2 3) 0 0 = .ok ⟨0, 0, some []⟩ ∧
    Draw (solid 1 1 1 2 3) ⟨0, 0, some []⟩ 0 0 = .ok (solid 1 1 1 2 3) := by
  decide!

/-- C8, as the code behaves: Draw throws (the error of no data, and no other)
exactly when the destination or the source is unallocated, that is has a null
pixels_; it returns success exactly when both are allocated, whatever their
width and height; and when it throws the destination is unchanged. -/
theorem Draw_fails_iff_unallocated (obj other : Image) (x y : Int) :
    (Draw obj other x y = .error .noData ↔ (obj.pixels_ = none ∨ other.pixels_ = none)) ∧
    ((∃ img, Draw obj other x y = .ok img) ↔ (obj.pixels_ ≠ none ∧ other.pixels_ ≠ none)) ∧
    ((obj.pixels_ = none ∨ other.pixels_ = none) → after (Draw obj other x y) obj = obj) := by
  cases hd : obj.pixels_ with
  | none =>
    have e := Draw_unallocated obj other x y (Or.inl hd)
    rw [e]
    simp [after]
  | some dest =>
    cases hs : other.pixels_ with
    | none =>
      have e := Draw_unallocated obj other x y (Or.inr hs)
      rw [e]
      simp [after]
    | some src =>
      rw [Draw_allocated obj other dest src x y hd hs]
      simp

/-- C8 on an example: an unallocated destination (created without arguments). -/
theorem Draw_fails_iff_unallocated_example :
    after (Draw ⟨0, 0, none⟩ (solid 1 1 1 2 3) 0 0) ⟨0, 0, none⟩ = ⟨0, 0, none⟩ :=
  (Draw_fails_iff_unallocated ⟨0, 0, none⟩ (solid 1 1 1 2 3) 0 0).2.2 (Or.inl rfl)

/-! ## The invariant of the data model -/

theorem DataModel_of_length (w h : Int) (mem : List Byte) (hw : 0 ≤ w) (hh : 0 ≤ h)
    (hl : mem.length = (w * h * 3).toNat) : DataModel ⟨w, h, some mem⟩ := by
  have p : 0 ≤ w * h := mul_nonneg hw hh
  refine ⟨hw, hh, Or.inr ?_⟩
  show some ((mem.length : Nat) : Int) = some (w * h * 3)
  rw [hl]
  congr 1
  omega

/-- Draw preserves the invariant of the data model. -/
theorem DataModel_Draw (obj other : Image) (x y : Int) (h : DataModel obj) :
    DataModel (after (Draw obj other x y) obj) := by
  cases hr : Draw obj other x y with
  | error e => exact h
  | ok img =>
    obtain ⟨e1, e2, e3⟩ := Draw_shape obj other x y img hr
    obtain ⟨a, b, c⟩ := h
    unfold after
    simp only
    refine ⟨by rw [e1]; exact a, by rw [e2]; exact b, ?_⟩
    rw [e1, e2]
    cases hi : img.pixels_ with
    | none =>
      cases ho : obj.pixels_ with
      | none =>
        rcases c with c | c
        · exact Or.inl ⟨rfl, c.2⟩
        · rw [ho] at c
          simp at c
      | some m =>
        rw [hi, ho] at e3
        simp at e3
    | some mi =>
      cases ho : obj.pixels_ with
      | none =>
        rw [hi, ho] at e3
        simp at e3
      | some m =>
        rw [hi, ho] at e3
        have el : mi.length = m.length := by simpa using e3
        rcases c with c | c
        · rw [ho] at c
          simp at c
        · rw [ho] at c
          refine Or.inr ?_
          show some ((mi.length : Nat) : Int) = some (obj.width_ * obj.height_ * 3)
          rw [el]
          exact c

/-- Resize with target dimensions in range preserves the invariant of the data
model. -/
theorem DataModel_Resize (hp : Heap) (obj : Image) (widthRatio : ℚ) (heightRatio : Option ℚ)
    (h : DataModel obj) (hr : ResizeInRange obj widthRatio heightRatio) :
    DataModel (after (Resize hp obj widthRatio heightRatio) obj) := by
  obtain ⟨r1, r2, r3⟩ := hr
  rw [Resize_eq, byteCount _ _ r1 r2 r3]
  cases hm : malloc hp (newDim obj.width_ widthRatio *
      newDim obj.height_ (heightRatio.getD widthRatio) * 3).toNat with
  | none => exact h
  | some mem =>
    unfold after
    simp only
    apply DataModel_of_length _ _ _ r1 r2
    rw [Resize_fold_length, malloc_length hp _ mem hm]

/-- The constructor with arguments in range establishes the invariant of the
data model. -/
theorem DataModel_New (hp : Heap) (args : Args) (img : Image) (ha : Args.InRange args)
    (hnew : New hp args = .ok img) : DataModel img := by
  cases args with
  | size n =>
    obtain ⟨a1, -, a3⟩ := ha
    rw [New_size_in_range hp n img a1 a3 hnew]
    exact DataModel_of_length _ _ _ a1 a1 (by simp)
  | widthHeight w h =>
    obtain ⟨a1, -, a3, -, a5⟩ := ha
    rw [New_widthHeight_in_range hp w h img a1 a3 a5 hnew]
    exact DataModel_of_length _ _ _ a1 a3 (by simp)
  | other =>
    simp only [New, Except.ok.injEq] at hnew
    rw [← hnew]
    exact ⟨le_refl _, le_refl _, Or.inl ⟨rfl, rfl, rfl⟩⟩

/-- C9, refuted as stated: create(-2) yields a reachable buffer of width -2 and
height -2 holding 12 bytes, and create(1073741825, 4) a reachable buffer whose
block of 12 bytes is not width * height * 3 bytes long; neither satisfies the
invariant of the data model. -/
theorem DataModel_violated_by_reachable :
    (Reachable ⟨-2, -2, some (List.replicate 12 0)⟩ ∧
      ¬ DataModel ⟨-2, -2, some (List.replicate 12 0)⟩) ∧
    (Reachable ⟨1073741825, 4, some (List.replicate 12 0)⟩ ∧
      ¬ DataModel ⟨1073741825, 4, some (List.replicate 12 0)⟩) :=
  ⟨⟨Reachable.new heapOk (.size (-2)) _ (by unfold Args.IsInt; decide) (by decide!),
      by decide⟩,
    ⟨Reachable.new heapOk (.widthHeight 1073741825 4) _ (by unfold Args.IsInt; decide)
      (by decide!), by decide⟩⟩

/-- C9, as the code behaves: every state reachable from constructor calls whose
arguments are non-negative ints with a byte count width * height * 3 that is an
int, by Resize calls (successful or not) whose target width and height are
non-negative with a byte count that is an int, and by Draw calls (successful or
not) with arbitrary arguments, satisfies the invariant of the data model. -/
theorem DataModel_of_reachable_in_range (img : Image) (h : ReachableInRange img) :
    DataModel img := by
  induction h with
  | new hp args img ha hnew => exact DataModel_New hp args img ha hnew
  | resize hp obj widthRatio heightRatio _ hr ih =>
    exact DataModel_Resize hp obj widthRatio heightRatio ih hr
  | draw obj other x y _ _ ih _ => exact DataModel_Draw obj other x y ih

/-- C9 on an example: the state after create(2, 2) and a Draw of the image
made by create(1, 1) at offset (1, 1). -/
theorem DataModel_of_reachable_in_range_example :
    DataModel (after (Draw ⟨2, 2, some (List.replicate 12 0)⟩ ⟨1, 1, some [0, 0, 0]⟩ 1 1)
      ⟨2, 2, some (List.replicate 12 0)⟩) :=
  DataModel_of_reachable_in_range _
    (ReachableInRange.draw ⟨2, 2, some (List.replicate 12 0)⟩ ⟨1, 1, some [0, 0, 0]⟩ 1 1
      (ReachableInRange.new heapOk (.widthHeight 2 2) _ (by unfold Args.InRange; decide)
        (by decide!))
      (ReachableInRange.new heapOk (.widthHeight 1 1) _ (by unfold Args.InRange; decide)
        (by decide!)))

/-! ## The indices of Resize -/

/-- The sample coordinates clamped by Resize lie in the source image, and the
byte index read for them lies in the source block. -/
theorem sample_read_in_bounds (obj : Image) (hobj : HasStorage obj) (hw : 1 ≤ obj.width_)
    (hh : 1 ≤ obj.height_) (gxi gyi c : Int) (m n : Fin 4) (hc0 : 0 ≤ c) (hc : c < 3) :
    0 ≤ clamp0 (iadd gxi ((m.val : Int) - 1)) (isub obj.width_ 1) ∧
    clamp0 (iadd gxi ((m.val : Int) - 1)) (isub obj.width_ 1) ≤ obj.width_ - 1 ∧
    0 ≤ clamp0 (iadd gyi ((n.val : Int) - 1)) (isub obj.height_ 1) ∧
    clamp0 (iadd gyi ((n.val : Int) - 1)) (isub obj.height_ 1) ≤ obj.height_ - 1 ∧
    0 ≤ iadd (pixelIndex obj.width_
        (clamp0 (iadd gyi ((n.val : Int) - 1)) (isub obj.height_ 1))
        (clamp0 (iadd gxi ((m.val : Int) - 1)) (isub obj.width_ 1))) c ∧
    iadd (pixelIndex obj.width_
        (clamp0 (iadd gyi ((n.val : Int) - 1)) (isub obj.height_ 1))
        (clamp0 (iadd gxi ((m.val : Int) - 1)) (isub obj.width_ 1))) c <
      obj.width_ * obj.height_ * 3 := by
  obtain ⟨w0, w1, h0, h1, h3, -⟩ := hobj
  rw [isub_one _ hw w1, isub_one _ hh h1]
  obtain ⟨px0, px1⟩ := clamp0_bounds (iadd gxi ((m.val : Int) - 1)) (obj.width_ - 1) (by omega)
  obtain ⟨py0, py1⟩ := clamp0_bounds (iadd gyi ((n.val : Int) - 1)) (obj.height_ - 1) (by omega)
  generalize clamp0 (iadd gxi ((m.val : Int) - 1)) (obj.width_ - 1) = px at *
  generalize clamp0 (iadd gyi ((n.val : Int) - 1)) (obj.height_ - 1) = py at *
  obtain ⟨e, e0, e3⟩ := pixelIndex_eq obj.width_ obj.height_ py px w0 h3 py0 (by omega) px0
    (by omega)
  rw [e, iadd_small _ c (by omega) hc0 (by omega)]
  refine ⟨px0, px1, py0, py1, by omega, by omega⟩

/-- When the byte count of the target is an int, the block requested by Resize
has that many bytes and every byte index written for a destination pixel lies
in it. -/
theorem write_index_in_bounds (nw nh x y c : Int) (hnw : 0 ≤ nw) (hnh : 0 ≤ nh)
    (h3 : nw * nh * 3 ≤ INT_MAX) (hx0 : 0 ≤ x) (hx : x < nw) (hy0 : 0 ≤ y) (hy : y < nh)
    (hc0 : 0 ≤ c) (hc : c < 3) :
    toSizeT (imul (imul nw nh) 3) = (nw * nh * 3).toNat ∧
    0 ≤ iadd (pixelIndex nw y x) c ∧ iadd (pixelIndex nw y x) c < nw * nh * 3 := by
  obtain ⟨e, e0, e3⟩ := pixelIndex_eq nw nh y x hnw h3 hy0 hy hx0 hx
  rw [e, iadd_small _ c (by omega) hc0 (by omega)]
  exact ⟨byteCount nw nh hnw hnh h3, by omega, by omega⟩

/-- C10 at an input whose target byte count overflows int: a 1000x1000 buffer
with storage resized by 40 has target width and height 40000; the int
newWidth * newHeight * 3 wraps from 4800000000 to 505032704, which is the size
of the block Resize obtains and keeps as a 40000x40000 image; the index written
for the destination pixel (0, 4209) is 505080000, past the end of that block,
and the index computed for the pixel (0, 20000) is the negative int
-1894967296. -/
theorem Resize_write_index_overflow :
    HasStorage (solid 1000 1000 0 0 0) ∧
    newDim 1000 40 = 40000 ∧
    (40000 : Int) * 40000 * 3 = 4800000000 ∧
    toSizeT (imul (imul 40000 40000) 3) = 505032704 ∧
    pixelIndex 40000 4209 0 = 505080000 ∧
    pixelIndex 40000 20000 0 = -1894967296 ∧
    ∃ mem, Resize heapOk (solid 1000 1000 0 0 0) 40 none = .ok ⟨40000, 40000, some mem⟩ ∧
      mem.length = 505032704 := by
  have hd : newDim 1000 40 = 40000 := by decide!
  have hs : toSizeT (imul (imul 40000 40000) 3) = 505032704 := by decide!
  refine ⟨solid_hasStorage 1000 1000 0 0 0 (by decide) (by decide) (by decide), hd,
    by decide, hs, by decide!, by decide!, ?_⟩
  have ew : (solid 1000 1000 0 0 0).width_ = 1000 := rfl
  have eh : (solid 1000 1000 0 0 0).height_ = 1000 := rfl
  rw [Resize_eq]
  simp only [Option.getD_none]
  rw [ew, eh, hd, hs, malloc_of_avail heapOk _ rfl]
  refine ⟨_, rfl, ?_⟩
  rw [Resize_fold_length]
  simp

end Image
